import Mathlib

/-!
Verification of the entity aggregation and comparison core of the
ner_controller repository: the Levenshtein similarity / deduplication
engine, the entity diff calculator, the text chunker, the NER-safe
segmenter, the composite extractor, and the embedding population stage.

Python strings are modeled as lists of characters.  Python `str.casefold`
is modeled as per-character lowercasing, and `int(x * 0.2)` on a
non-negative integer length is modeled as floor division by 5; both agree
with CPython on the data handled by the repository.
-/

namespace NerController

/-- Whitespace characters recognized by Python `str.strip` (ASCII subset,
the only whitespace the repository manipulates). -/
def pyIsSpace (c : Char) : Bool :=
  c = ' ' || c = '\t' || c = '\n' || c = '\r' || c = '\x0b' || c = '\x0c'

/-- Python `str.strip()`: remove leading whitespace, then trailing
whitespace (`List.rdropWhile p l` is `(l.reverse.dropWhile p).reverse`). -/
def pyStrip (s : List Char) : List Char :=
  (s.dropWhile pyIsSpace).rdropWhile pyIsSpace

/-- Python `str.casefold()`, modeled as per-character lowercasing. -/
def pyCasefold (s : List Char) : List Char :=
  s.map Char.toLower

/-- Canonical form used throughout `levenshtein_utils.py`:
`s.strip().casefold()`. -/
def canonical (s : List Char) : List Char :=
  pyCasefold (pyStrip s)

/-- Convenience coercion from Lean string literals to the model. -/
def pyStr (s : String) : List Char :=
  s.data

/-! ## Levenshtein distance (`levenshtein_utils.levenshtein_distance`)

The Python implementation is the classical row dynamic programming: it
keeps `previous_row` (distances from the prefix of `s1` processed so far
to every prefix of `s2`) and rebuilds `current_row` left to right. -/

/-- Inner loop of the row DP.  Arguments: remaining characters of `s2`,
remaining entries of the previous row (from column `j + 1` on), the
previous row entry at column `j` (`diag`), and the current row entry at
column `j` (`left`).  Produces the current row entries from column
`j + 1` on. -/
def levRowAux (c1 : Char) : List Char → List Nat → Nat → Nat → List Nat
  | [], _, _, _ => []
  | _ :: _, [], _, _ => []
  | c2 :: s2, p1 :: prest, diag, left =>
    min (p1 + 1) (min (left + 1) (diag + (if c1 = c2 then 0 else 1))) ::
      levRowAux c1 s2 prest p1
        (min (p1 + 1) (min (left + 1) (diag + (if c1 = c2 then 0 else 1))))

/-- One iteration of the outer loop: build `current_row` from
`previous_row` for the character `c1` of `s1`.  The Python code seeds
`current_row = [i + 1]`; since `previous_row` starts with `i`, this is
the head of the previous row plus one. -/
def levNextRow (c1 : Char) (s2 : List Char) : List Nat → List Nat
  | [] => []
  | p0 :: prest => (p0 + 1) :: levRowAux c1 s2 prest p0 (p0 + 1)

/-- Outer loop of the DP over the characters of `s1`. -/
def levRows (s2 : List Char) : List Char → List Nat → List Nat
  | [], prev => prev
  | c1 :: s1, prev => levRows s2 s1 (levNextRow c1 s2 prev)

/-- Body of `levenshtein_distance` after the swap: early return for an
empty `s2`, otherwise the last entry of the final row
(`previous_row[-1]`). -/
def levCore (s1 s2 : List Char) : Nat :=
  if s2.length = 0 then s1.length
  else (levRows s2 s1 (List.range (s2.length + 1))).getLastD 0

/-- `levenshtein_distance` from `levenshtein_utils.py`: swap the
arguments so the first is the longer one, then run the row DP. -/
def levenshtein_distance (s1 s2 : List Char) : Nat :=
  if s1.length < s2.length then levCore s2 s1 else levCore s1 s2

/-- Textbook recursive Levenshtein distance, the proof reference for the
row DP. -/
def levRec : List Char → List Char → Nat
  | [], ys => ys.length
  | x :: xs, [] => (x :: xs).length
  | x :: xs, y :: ys =>
    min (levRec xs (y :: ys) + 1)
      (min (levRec (x :: xs) ys + 1)
        (levRec xs ys + (if x = y then 0 else 1)))
termination_by xs ys => xs.length + ys.length
decreasing_by
  all_goals simp [List.length_cons]
  all_goals omega

/-- Prefix-oriented reference distance: the row DP builds distances
between prefixes, which correspond to suffix recursion on the reversed
lists. -/
def levP (xs ys : List Char) : Nat :=
  levRec xs.reverse ys.reverse

/-- Expected tail of a DP row: entries for the columns of `s2t`, given
that the columns for `pre` are already produced. -/
def expRow (A pre : List Char) : List Char → List Nat
  | [] => []
  | c2 :: t => levP A (pre ++ [c2]) :: expRow A (pre ++ [c2]) t

/-- Full expected DP row for the prefix `A` of `s1`. -/
def fullRow (A s2 : List Char) : List Nat :=
  levP A [] :: expRow A [] s2

/-! ## Similarity test (`levenshtein_utils.normalized_similarity`)

All call sites covered by the claims leave `threshold_percent` at its
default value `0.2`; `int(max_length * 0.2)` is modeled as
`max_length / 5` (they agree for every length CPython can produce
here). -/

/-- `normalized_similarity` from `levenshtein_utils.py` at the default
`threshold_percent = 0.2`. -/
def normalized_similarity (s1 s2 : List Char) : Bool :=
  let n1 := canonical s1
  let n2 := canonical s2
  if n1 = n2 then true
  else
    decide (levenshtein_distance n1 n2 ≤ max 3 (max n1.length n2.length / 5))

/-! ## Deduplication (`levenshtein_utils.deduplicate_entities`) -/

/-- Duplicate test used by one round of `deduplicate_entities`:
the legacy absolute-threshold comparison when `threshold` is provided,
`normalized_similarity` otherwise. -/
def dedupTest (threshold : Option Nat) (entity seen : List Char) : Bool :=
  match threshold with
  | some t =>
    decide (canonical entity = canonical seen) ||
      decide (levenshtein_distance (canonical entity) (canonical seen) ≤ t)
  | none => normalized_similarity entity seen

/-- Main loop of `deduplicate_entities`: scan the input in order, keep a
candidate only when it is not a duplicate of an already accepted
representative, and append the stripped spelling. -/
def dedupGo (threshold : Option Nat) : List (List Char) → List (List Char) → List (List Char)
  | [], acc => acc
  | e :: rest, acc =>
    if acc.any (fun seen => dedupTest threshold e seen) then
      dedupGo threshold rest acc
    else
      dedupGo threshold rest (acc ++ [pyStrip e])

/-- `deduplicate_entities` from `levenshtein_utils.py` (the early return
for an empty input coincides with running the loop on it). -/
def deduplicate_entities (entities : List (List Char)) (threshold : Option Nat) :
    List (List Char) :=
  dedupGo threshold entities []

/-! ## Entity diff calculator (`entity_diff_calculator.py`) -/

/-- Result record `EntityDiffResult`
(`templates/src/.../entity_diff_result.py`). -/
structure EntityDiffResult where
  potential_hallucinations : List (List Char)
  missing_entities : List (List Char)
deriving DecidableEq, Repr

/-- Private helper `EntityDiffCalculator._is_similar_to_any`:
case-insensitive exact match or Levenshtein distance at most 2 against
any list element. -/
def isSimilarToAny (entity : List Char) (entity_list : List (List Char)) : Bool :=
  entity_list.any fun other =>
    decide (canonical entity = canonical other) ||
      decide (levenshtein_distance (canonical entity) (canonical other) ≤ 2)

/-- `EntityDiffCalculator.calculate`: deduplicate both inputs with the
legacy absolute threshold 2, then keep the entities of one deduplicated
list that are not similar (distance at most 2) to any entity of the
other. -/
def calculate (request_entities response_entities : List (List Char)) : EntityDiffResult :=
  let uniqueRequest := deduplicate_entities request_entities (some 2)
  let uniqueResponse := deduplicate_entities response_entities (some 2)
  { potential_hallucinations :=
      uniqueResponse.filter (fun e => ! isSimilarToAny e uniqueRequest),
    missing_entities :=
      uniqueRequest.filter (fun e => ! isSimilarToAny e uniqueResponse) }

/-- Modelled from the spec: the diff calculation exactly as claim C1
words it — both inputs deduplicated with the Deduplication Engine in its
canonical relative-threshold mode (threshold left unset), and the output
lists filtered with the Contract B similarity test
(`normalized_similarity`). -/
def specCalculate (request_entities response_entities : List (List Char)) : EntityDiffResult :=
  let uniqueRequest := deduplicate_entities request_entities none
  let uniqueResponse := deduplicate_entities response_entities none
  { potential_hallucinations :=
      uniqueResponse.filter
        (fun e => ! uniqueRequest.any (fun r => normalized_similarity e r)),
    missing_entities :=
      uniqueRequest.filter
        (fun e => ! uniqueResponse.any (fun r => normalized_similarity e r)) }

/-- The amended description of `calculate`: the same pipeline with the
legacy absolute threshold 2 taken from the Deduplication Engine for both
the deduplication rounds and the similarity filters. -/
def legacyCalculate (request_entities response_entities : List (List Char)) : EntityDiffResult :=
  let uniqueRequest := deduplicate_entities request_entities (some 2)
  let uniqueResponse := deduplicate_entities response_entities (some 2)
  { potential_hallucinations :=
      uniqueResponse.filter
        (fun e => ! uniqueRequest.any (fun r => dedupTest (some 2) e r)),
    missing_entities :=
      uniqueRequest.filter
        (fun e => ! uniqueResponse.any (fun r => dedupTest (some 2) e r)) }

/-! ## Text chunker (`infrastructure/chunking/text_chunker.py`) -/

/-- Data record `FileChunk` (`domain/entities/file_chunk.py`); embedding
vector components are opaque to the whole pipeline, modeled as
integers. -/
structure FileChunk where
  id : Int
  text : List Char
  entities : List (List Char)
  embedding : Option (List Int)
deriving DecidableEq, Repr

/-- Error messages of `TextChunker._validate_parameters`, naming the
offending values like the Python f-strings do. -/
def chunkSizeError (chunk_size : Int) : String :=
  "chunk_size must be > 0, got " ++ toString chunk_size

def chunkOverlapNegError (chunk_overlap : Int) : String :=
  "chunk_overlap must be >= 0, got " ++ toString chunk_overlap

def chunkOverlapRangeError (chunk_overlap chunk_size : Int) : String :=
  "chunk_overlap must be < chunk_size, got chunk_overlap=" ++
    toString chunk_overlap ++ ", chunk_size=" ++ toString chunk_size

/-- `TextChunker._validate_parameters`. -/
def validateParameters (chunk_size chunk_overlap : Int) : Except String Unit :=
  if chunk_size ≤ 0 then Except.error (chunkSizeError chunk_size)
  else if chunk_overlap < 0 then Except.error (chunkOverlapNegError chunk_overlap)
  else if chunk_overlap ≥ chunk_size then
    Except.error (chunkOverlapRangeError chunk_overlap chunk_size)
  else Except.ok ()

/-- Main loop of `TextChunker.split_text`.  `fuel` bounds the number of
iterations; `text.length` iterations always suffice because the position
advances by `stride ≥ 1` each time (validated parameters), and once the
position passes the end both the fuel-exhausted and the normal exit
return the empty tail. -/
def chunkLoop (text : List Char) (size stride : Nat) :
    Nat → Nat → Int → List FileChunk
  | 0, _, _ => []
  | fuel + 1, position, chunk_id =>
    if position < text.length then
      ⟨chunk_id, (text.drop position).take size, [], none⟩ ::
        chunkLoop text size stride fuel (position + stride) (chunk_id + 1)
    else []

/-- `TextChunker.split_text`: validate, return `[]` for empty text,
otherwise run the loop from position 0.  The loop body's
`if chunk_text:` guard is always taken (the slice at a position strictly
inside the text is never empty), so the loop always emits a chunk and
bumps the id; the model's single cons mirrors that. -/
def split_text (text : List Char) (chunk_size chunk_overlap start_id : Int) :
    Except String (List FileChunk) :=
  match validateParameters chunk_size chunk_overlap with
  | Except.error e => Except.error e
  | Except.ok _ =>
    if text.isEmpty then Except.ok []
    else
      Except.ok (chunkLoop text chunk_size.toNat
        (chunk_size.toNat - chunk_overlap.toNat) text.length 0 start_id)

/-- Reconstruction of §8: the first chunk whole, every later chunk with
its first `chunk_overlap` characters removed. -/
def reconstruct (overlap : Nat) : List FileChunk → List Char
  | [] => []
  | c :: rest => c.text ++ (rest.map (fun d => d.text.drop overlap)).flatten

/-! ## NER-safe segmenter (`gliner_entity_extractor._split_for_model`) -/

/-- Python `re.sub(r"\s+", " ", text)`: collapse every maximal run of
whitespace into a single space. -/
def collapseWs : List Char → List Char
  | [] => []
  | [c] => if pyIsSpace c then [' '] else [c]
  | c1 :: c2 :: t =>
    if pyIsSpace c1 then
      if pyIsSpace c2 then collapseWs (c2 :: t)
      else ' ' :: collapseWs (c2 :: t)
    else c1 :: collapseWs (c2 :: t)

/-- Sentence boundary characters of `_split_for_model`. -/
def boundaryChars : List Char :=
  ['.', '!', '?', ';', ':', '\n']

/-- Python loop `for idx in range(tentative_end, search_from, -1)`:
starting at `idx` and stopping after `lo + 1`, return the first `idx`
whose previous character is a boundary character. -/
def findBoundary (s : List Char) (lo : Nat) : Nat → Option Nat
  | 0 => none
  | idx + 1 =>
    if idx + 1 ≤ lo then none
    else if boundaryChars.contains (s.getD idx ' ') then some (idx + 1)
    else findBoundary s lo idx

/-- Split position chosen by one loop iteration of `_split_for_model`:
search backward from `tentative_end` (the window end) down to
`search_from` for a sentence boundary; fall back to the hard cut at the
window end (`split_pos == -1` case). -/
def segSplitPos (normalized : List Char) (maxC minC start : Nat) : Nat :=
  (findBoundary normalized
    (max (start + minC) (min (start + maxC) normalized.length - 300))
    (min (start + maxC) normalized.length)).getD
    (min (start + maxC) normalized.length)

/-- Main loop of `_split_for_model` over the normalized text.  `fuel`
bounds the iteration count; `normalized.length` iterations always
suffice because the split position strictly advances. -/
def segLoop (normalized : List Char) (maxC minC : Nat) :
    Nat → Nat → List (List Char)
  | 0, _ => []
  | fuel + 1, start =>
    if start < normalized.length then
      if min (start + maxC) normalized.length = normalized.length then
        [pyStrip ((normalized.drop start).take (normalized.length - start))]
      else
        if (pyStrip ((normalized.drop start).take
            (segSplitPos normalized maxC minC start - start))).isEmpty then
          segLoop normalized maxC minC fuel (segSplitPos normalized maxC minC start)
        else
          pyStrip ((normalized.drop start).take
              (segSplitPos normalized maxC minC start - start)) ::
            segLoop normalized maxC minC fuel (segSplitPos normalized maxC minC start)
    else []

/-- `GlinerEntityExtractor._split_for_model`. -/
def splitForModel (text : List Char) (maxC minC : Nat) : List (List Char) :=
  let normalized := pyStrip (collapseWs text)
  if normalized.isEmpty then []
  else if normalized.length ≤ maxC then [normalized]
  else segLoop normalized maxC minC normalized.length 0

/-! ## Composite extractor (`composite_entity_extractor.py`)

Backends are modeled as functions returning either a mention list or a
raised error (`Except.error`). -/

/-- Type of a backend extractor call result for fixed arguments. -/
def ExtractorFun : Type :=
  List Char → List (List Char) → Except Unit (List (List Char))

/-- `CompositeEntityExtractor.extract`: empty text or empty type list
short-circuits; otherwise every backend is invoked in registration
order, a raised error contributes nothing (`continue`), and the
concatenation is deduplicated with the engine's default relative
threshold. -/
def compositeExtract (extractors : List ExtractorFun)
    (text : List Char) (entity_types : List (List Char)) : List (List Char) :=
  if text.isEmpty || entity_types.isEmpty then []
  else
    deduplicate_entities
      ((extractors.map (fun ex =>
        match ex text entity_types with
        | Except.ok entities => entities
        | Except.error _ => [])).flatten)
      none

/-! ## Embedding population (`file_processing_service.py`,
`_generate_embeddings_for_chunks`)

The embedding generator collaborator either raises (modeled as
`Except.error`) or returns one optional vector per input text; vector
components are opaque values. -/

/-- The `try/except` around the generator call: a raised error becomes
one `None` per chunk. -/
def embCallGenerator
    (generate : List (List Char) → Except Unit (List (Option (List Int))))
    (chunks : List FileChunk) : List (Option (List Int)) :=
  match generate (chunks.map (fun c => c.text)) with
  | Except.ok es => es
  | Except.error _ => List.replicate chunks.length none

/-- The size-mismatch normalization: truncate to the chunk count and pad
with `None`. -/
def embNormalize (n : Nat) (embeddings : List (Option (List Int))) :
    List (Option (List Int)) :=
  if embeddings.length ≠ n then
    embeddings.take n ++ List.replicate (n - embeddings.length) none
  else embeddings

/-- `FileProcessingService._generate_embeddings_for_chunks`: on a raised
generator error all embeddings become `None`; a result of the wrong
length is truncated and padded with `None`; each chunk is rebuilt with
only the embedding replaced. -/
def generateEmbeddingsForChunks
    (generate : List (List Char) → Except Unit (List (Option (List Int))))
    (chunks : List FileChunk) : List FileChunk :=
  if chunks.isEmpty then []
  else
    (chunks.zip (embNormalize chunks.length (embCallGenerator generate chunks))).map
      (fun p => ⟨p.1.id, p.1.text, p.1.entities, p.2⟩)

/-- Concrete backends for the C8 witness. -/
def w8failing : ExtractorFun := fun _ _ => Except.error ()

def w8healthy : ExtractorFun := fun _ _ => Except.ok [pyStr "Bob", pyStr "bob"]

/-- Concrete generator and chunks for the C10 witness: the generator
returns one vector for two chunks, so the second embedding is padded to
`none`. -/
def w10generate : List (List Char) → Except Unit (List (Option (List Int))) :=
  fun _ => Except.ok [some [3]]

def w10chunks : List FileChunk :=
  [⟨0, pyStr "a", [], none⟩, ⟨1, pyStr "b", [], none⟩]

theorem levRec_nil_left (ys : List Char) : levRec [] ys = ys.length := by
  simp [levRec]

theorem levRec_nil_right (xs : List Char) : levRec xs [] = xs.length := by
  cases xs <;> simp [levRec]

theorem levRec_cons_cons (x y : Char) (xs ys : List Char) :
    levRec (x :: xs) (y :: ys) =
      min (levRec xs (y :: ys) + 1)
        (min (levRec (x :: xs) ys + 1)
          (levRec xs ys + (if x = y then 0 else 1))) := by
  simp [levRec]

theorem levRec_symm (xs : List Char) : ∀ ys, levRec xs ys = levRec ys xs := by
  induction xs with
  | nil => intro ys; cases ys <;> simp [levRec]
  | cons x xs ihx =>
    intro ys
    induction ys with
    | nil => simp [levRec]
    | cons y ys ihy =>
      rw [levRec_cons_cons x y xs ys, levRec_cons_cons y x ys xs]
      rw [ihx (y :: ys), ihx ys, ihy]
      have hc : (if x = y then (0 : Nat) else 1) = (if y = x then 0 else 1) := by
        by_cases h : x = y
        · simp [h]
        · have h2 : ¬ y = x := fun hyx => h hyx.symm
          simp [h, h2]
      rw [hc]
      exact min_left_comm _ _ _

theorem levP_nil_left (ys : List Char) : levP [] ys = ys.length := by
  simp [levP, levRec_nil_left]

theorem levP_nil_right (xs : List Char) : levP xs [] = xs.length := by
  simp [levP, levRec_nil_right]

theorem levP_symm (xs ys : List Char) : levP xs ys = levP ys xs := by
  simp [levP, levRec_symm]

theorem levP_snoc_snoc (A pre : List Char) (x y : Char) :
    levP (A ++ [x]) (pre ++ [y]) =
      min (levP A (pre ++ [y]) + 1)
        (min (levP (A ++ [x]) pre + 1)
          (levP A pre + (if x = y then 0 else 1))) := by
  simp only [levP, List.reverse_append, List.reverse_cons, List.reverse_nil,
    List.nil_append, List.cons_append, List.singleton_append]
  exact levRec_cons_cons x y A.reverse pre.reverse

theorem levRowAux_spec (c1 : Char) (A : List Char) :
    ∀ (s2t pre : List Char),
      levRowAux c1 s2t (expRow A pre s2t) (levP A pre) (levP (A ++ [c1]) pre)
        = expRow (A ++ [c1]) pre s2t := by
  intro s2t
  induction s2t with
  | nil => intro pre; simp [levRowAux, expRow]
  | cons c2 t ih =>
    intro pre
    rw [expRow, expRow, levRowAux]
    rw [show min (levP A (pre ++ [c2]) + 1)
        (min (levP (A ++ [c1]) pre + 1)
          (levP A pre + (if c1 = c2 then 0 else 1)))
        = levP (A ++ [c1]) (pre ++ [c2]) from (levP_snoc_snoc A pre c1 c2).symm]
    rw [ih (pre ++ [c2])]

theorem levNextRow_spec (c1 : Char) (A s2 : List Char) :
    levNextRow c1 s2 (fullRow A s2) = fullRow (A ++ [c1]) s2 := by
  rw [fullRow, levNextRow, fullRow]
  have h0 : levP A [] + 1 = levP (A ++ [c1]) [] := by
    simp [levP_nil_right]
  rw [h0]
  have := levRowAux_spec c1 A s2 []
  simp only [List.nil_append] at this
  rw [this]

theorem levRows_spec (s2 : List Char) :
    ∀ (s1t A : List Char), levRows s2 s1t (fullRow A s2) = fullRow (A ++ s1t) s2 := by
  intro s1t
  induction s1t with
  | nil => intro A; simp [levRows]
  | cons c1 t ih =>
    intro A
    rw [levRows, levNextRow_spec, ih]
    simp

theorem expRow_nil_left : ∀ (s2t pre : List Char),
    expRow [] pre s2t = List.range' (pre.length + 1) s2t.length := by
  intro s2t
  induction s2t with
  | nil => intro pre; simp [expRow]
  | cons c2 t ih =>
    intro pre
    rw [expRow, ih (pre ++ [c2])]
    have h : levP [] (pre ++ [c2]) = pre.length + 1 := by
      simp [levP_nil_left]
    rw [h]
    simp [List.range'_succ]

theorem initial_row (s2 : List Char) :
    List.range (s2.length + 1) = fullRow [] s2 := by
  rw [fullRow, expRow_nil_left, levP_nil_left]
  simp only [List.length_nil]
  rw [List.range_eq_range']
  rw [List.range'_succ]

theorem getLastD_expRow (A : List Char) :
    ∀ (s2t pre : List Char) (d : Nat),
      (levP A pre :: expRow A pre s2t).getLastD d = levP A (pre ++ s2t) := by
  intro s2t
  induction s2t with
  | nil => intro pre d; simp [expRow]
  | cons c2 t ih =>
    intro pre d
    rw [expRow]
    rw [List.getLastD_cons, List.getLastD_cons]
    have := ih (pre ++ [c2]) (levP A pre)
    rw [List.getLastD_cons] at this
    rw [this]
    simp

theorem levCore_eq (s1 s2 : List Char) : levCore s1 s2 = levP s1 s2 := by
  rw [levCore]
  by_cases h : s2.length = 0
  · have : s2 = [] := List.length_eq_zero.mp h
    subst this
    simp [levP_nil_right]
  · rw [if_neg h]
    rw [initial_row, levRows_spec]
    simp only [List.nil_append]
    rw [fullRow]
    have := getLastD_expRow s1 s2 [] 0
    simp only [List.nil_append] at this
    exact this

theorem levenshtein_distance_eq (s1 s2 : List Char) :
    levenshtein_distance s1 s2 = levP s1 s2 := by
  rw [levenshtein_distance]
  by_cases h : s1.length < s2.length
  · rw [if_pos h, levCore_eq, levP_symm]
  · rw [if_neg h, levCore_eq]

theorem levenshtein_distance_symm (s1 s2 : List Char) :
    levenshtein_distance s1 s2 = levenshtein_distance s2 s1 := by
  rw [levenshtein_distance_eq, levenshtein_distance_eq, levP_symm]

/-! ## Properties of stripping, similarity and deduplication -/

theorem dropWhile_head_false (p : Char → Bool) :
    ∀ (l : List Char) {c : Char} {t : List Char},
      l.dropWhile p = c :: t → p c = false := by
  intro l
  induction l with
  | nil => intro c t h; simp [List.dropWhile] at h
  | cons a l ih =>
    intro c t h
    rw [List.dropWhile_cons] at h
    by_cases hp : p a = true
    · rw [if_pos hp] at h; exact ih h
    · rw [if_neg hp] at h
      have hac : a = c := by
        have := congrArg List.head? h
        simpa using this
      rw [← hac]
      simpa using hp

theorem pyStrip_idem (l : List Char) : pyStrip (pyStrip l) = pyStrip l := by
  rw [pyStrip, pyStrip]
  rcases h : (l.dropWhile pyIsSpace).rdropWhile pyIsSpace with _ | ⟨c, t⟩
  · simp [List.rdropWhile_nil]
  · have hpre := List.rdropWhile_prefix pyIsSpace (l.dropWhile pyIsSpace)
    rw [h] at hpre
    rcases hpre with ⟨r, hr⟩
    have hc : pyIsSpace c = false := by
      rcases hm : l.dropWhile pyIsSpace with _ | ⟨d, tl⟩
      · rw [hm] at hr; simp at hr
      · rw [hm] at hr
        have hcd : c = d := by
          have h2 := congrArg List.head? hr
          simpa using h2
        rw [hcd]
        exact dropWhile_head_false pyIsSpace l hm
    have hself : (c :: t).dropWhile pyIsSpace = c :: t := by
      rw [List.dropWhile_cons, hc]
      simp
    rw [hself, ← h, List.rdropWhile_idempotent]

theorem canonical_pyStrip (s : List Char) : canonical (pyStrip s) = canonical s := by
  rw [canonical, canonical, pyStrip_idem]

theorem pyStrip_length_le (l : List Char) : (pyStrip l).length ≤ l.length := by
  have h1 := List.rdropWhile_prefix pyIsSpace (l.dropWhile pyIsSpace)
  exact le_trans h1.length_le (List.dropWhile_sublist pyIsSpace).length_le

theorem pyStrip_eq_nil_iff (l : List Char) :
    pyStrip l = [] ↔ ∀ c ∈ l, pyIsSpace c = true := by
  rw [pyStrip, List.rdropWhile_eq_nil_iff]
  constructor
  · intro h c hc
    rw [← List.takeWhile_append_dropWhile pyIsSpace (l := l)] at hc
    rcases List.mem_append.mp hc with ht | hd
    · exact List.mem_takeWhile_imp ht
    · exact h c hd
  · intro h c hc
    exact h c (List.dropWhile_subset _ hc)

theorem pyStrip_getLast_not_space (l : List Char) (h : pyStrip l ≠ []) :
    ¬ pyIsSpace ((pyStrip l).getLast h) = true :=
  List.rdropWhile_last_not _ _ h

theorem normalized_similarity_symm (a b : List Char) :
    normalized_similarity a b = normalized_similarity b a := by
  simp only [normalized_similarity]
  by_cases h : canonical a = canonical b
  · rw [h]
  · have h2 : ¬ canonical b = canonical a := fun hba => h hba.symm
    simp only [h, h2, if_false]
    rw [levenshtein_distance_symm, Nat.max_comm (canonical a).length]

theorem normalized_similarity_strip_left (a b : List Char) :
    normalized_similarity (pyStrip a) b = normalized_similarity a b := by
  rw [normalized_similarity, normalized_similarity, canonical_pyStrip]

theorem dedupTest_strip_self (th : Option Nat) (x : List Char) :
    dedupTest th x (pyStrip x) = true := by
  rcases th with _ | t
  · rw [dedupTest, normalized_similarity, canonical_pyStrip]
    simp
  · rw [dedupTest, canonical_pyStrip]
    simp

theorem dedupGo_acc_append (th : Option Nat) :
    ∀ (l acc : List (List Char)), ∃ t, dedupGo th l acc = acc ++ t := by
  intro l
  induction l with
  | nil => intro acc; exact ⟨[], by simp [dedupGo]⟩
  | cons e rest ih =>
    intro acc
    rw [dedupGo]
    by_cases h : acc.any (fun seen => dedupTest th e seen) = true
    · rw [if_pos h]; exact ih acc
    · rw [if_neg h]
      rcases ih (acc ++ [pyStrip e]) with ⟨t, ht⟩
      exact ⟨pyStrip e :: t, by rw [ht]; simp⟩

theorem mem_dedupGo_of_mem_acc (th : Option Nat) (l acc : List (List Char))
    (a : List Char) (ha : a ∈ acc) : a ∈ dedupGo th l acc := by
  rcases dedupGo_acc_append th l acc with ⟨t, ht⟩
  rw [ht]
  exact List.mem_append_left t ha

theorem dedupGo_covers (th : Option Nat) :
    ∀ (l acc : List (List Char)) (x : List Char), x ∈ l →
      ∃ r ∈ dedupGo th l acc, dedupTest th x r = true := by
  intro l
  induction l with
  | nil => intro acc x hx; cases hx
  | cons e rest ih =>
    intro acc x hx
    rw [dedupGo]
    by_cases h : acc.any (fun seen => dedupTest th e seen) = true
    · rw [if_pos h]
      rcases hx with _ | hx
      · rcases List.any_eq_true.mp h with ⟨seen, hseen, htest⟩
        exact ⟨seen, mem_dedupGo_of_mem_acc th rest acc seen hseen, htest⟩
      · exact ih acc x (by assumption)
    · rw [if_neg h]
      rcases hx with _ | hx
      · refine ⟨pyStrip e, ?_, dedupTest_strip_self th e⟩
        exact mem_dedupGo_of_mem_acc th rest _ _ (by simp)
      · exact ih (acc ++ [pyStrip e]) x (by assumption)

/-- Elements of the accumulator and of the input that survive are the
stripped spellings, pairwise dissimilar (default threshold mode). -/
theorem dedupGo_pairwise :
    ∀ (l acc : List (List Char)),
      acc.Pairwise (fun a b => normalized_similarity a b = false) →
      (∀ a ∈ acc, pyStrip a = a) →
      (dedupGo none l acc).Pairwise (fun a b => normalized_similarity a b = false) ∧
        (∀ a ∈ dedupGo none l acc, pyStrip a = a) := by
  intro l
  induction l with
  | nil => intro acc hp hs; exact ⟨hp, hs⟩
  | cons e rest ih =>
    intro acc hp hs
    rw [dedupGo]
    by_cases h : acc.any (fun seen => dedupTest none e seen) = true
    · rw [if_pos h]; exact ih acc hp hs
    · rw [if_neg h]
      have hall : ∀ seen ∈ acc, normalized_similarity e seen = false := by
        intro seen hseen
        have := List.any_eq_false.mp (Bool.eq_false_iff.mpr h) seen hseen
        simpa [dedupTest] using this
      refine ih (acc ++ [pyStrip e]) ?_ ?_
      · rw [List.pairwise_append]
        refine ⟨hp, by simp, ?_⟩
        intro a ha b hb
        have hb1 : b = pyStrip e := by simpa using hb
        subst hb1
        rw [normalized_similarity_symm, normalized_similarity_strip_left]
        exact hall a ha
      · intro a ha
        rcases List.mem_append.mp ha with ha1 | ha2
        · exact hs a ha1
        · have : a = pyStrip e := by simpa using ha2
          rw [this, pyStrip_idem]

theorem dedupGo_sublist (th : Option Nat) :
    ∀ (l acc : List (List Char)),
      ∃ t, dedupGo th l acc = acc ++ t ∧ t.Sublist (l.map pyStrip) := by
  intro l
  induction l with
  | nil => intro acc; exact ⟨[], by simp [dedupGo]⟩
  | cons e rest ih =>
    intro acc
    rw [dedupGo]
    by_cases h : acc.any (fun seen => dedupTest th e seen) = true
    · rw [if_pos h]
      rcases ih acc with ⟨t, ht, hsub⟩
      exact ⟨t, ht, hsub.trans (List.sublist_cons_self _ _)⟩
    · rw [if_neg h]
      rcases ih (acc ++ [pyStrip e]) with ⟨t, ht, hsub⟩
      refine ⟨pyStrip e :: t, by rw [ht]; simp, ?_⟩
      simpa using List.Sublist.cons₂ (pyStrip e) hsub

theorem dedupGo_all_new :
    ∀ (l acc : List (List Char)),
      l.Pairwise (fun a b => normalized_similarity a b = false) →
      (∀ e ∈ l, pyStrip e = e) →
      (∀ e ∈ l, ∀ a ∈ acc, dedupTest none e a = false) →
      dedupGo none l acc = acc ++ l := by
  intro l
  induction l with
  | nil => intro acc _ _ _; simp [dedupGo]
  | cons e rest ih =>
    intro acc hp hs hacc
    rw [dedupGo]
    have hany : acc.any (fun seen => dedupTest none e seen) = false := by
      rw [List.any_eq_false]
      intro seen hseen
      simp [hacc e (by simp) seen hseen]
    rw [hany, if_neg (by simp), hs e (by simp)]
    rw [ih (acc ++ [e]) (List.Pairwise.of_cons hp) (fun x hx => hs x (by simp [hx])) ?_]
    · simp
    · intro x hx a ha
      rcases List.mem_append.mp ha with ha1 | ha2
      · exact hacc x (by simp [hx]) a ha1
      · have hae : a = e := by simpa using ha2
        subst hae
        have := (List.pairwise_cons.mp hp).1 x hx
        rw [dedupTest, normalized_similarity_symm]
        exact this

theorem deduplicate_entities_idem (xs : List (List Char)) :
    deduplicate_entities (deduplicate_entities xs none) none =
      deduplicate_entities xs none := by
  rcases dedupGo_pairwise xs [] (by simp) (by simp) with ⟨hp, hs⟩
  rw [deduplicate_entities, deduplicate_entities]
  rw [dedupGo_all_new (dedupGo none xs []) [] hp hs (by simp)]
  simp

/-! ### Chunker lemmas -/

theorem chunkLoop_get? (text : List Char) (size stride : Nat)
    (hstride : 0 < stride) :
    ∀ (fuel position : Nat) (chunk_id : Int) (k : Nat),
      text.length - position ≤ fuel →
      (chunkLoop text size stride fuel position chunk_id).get? k =
        if position + k * stride < text.length then
          some ⟨chunk_id + k, (text.drop (position + k * stride)).take size, [], none⟩
        else none := by
  intro fuel
  induction fuel with
  | zero =>
    intro position chunk_id k hf
    have hpos : ¬ position + k * stride < text.length := by omega
    rw [if_neg hpos]
    simp [chunkLoop]
  | succ fuel ih =>
    intro position chunk_id k hf
    rw [chunkLoop]
    by_cases hp : position < text.length
    · rw [if_pos hp]
      cases k with
      | zero =>
        have : position + 0 * stride < text.length := by omega
        rw [if_pos this]
        simp
      | succ k =>
        rw [List.get?]
        rw [ih (position + stride) (chunk_id + 1) k (by omega)]
        have harith : position + stride + k * stride = position + (k + 1) * stride := by
          ring
        rw [harith]
        by_cases hq : position + (k + 1) * stride < text.length
        · rw [if_pos hq, if_pos hq]
          have hid : chunk_id + 1 + (k : Int) = chunk_id + ((k : Nat) + 1 : Nat) := by
            push_cast
            ring
          rw [hid]
        · rw [if_neg hq, if_neg hq]
    · rw [if_neg hp]
      have hpos : ¬ position + k * stride < text.length := by omega
      rw [if_neg hpos]
      simp

theorem chunkLoop_dropped_join (text : List Char) (size stride overlap : Nat)
    (hstride : 0 < stride) (hso : stride + overlap = size) :
    ∀ (fuel position : Nat) (chunk_id : Int),
      text.length - position ≤ fuel →
      ((chunkLoop text size stride fuel position chunk_id).map
          (fun c => c.text.drop overlap)).flatten =
        text.drop (position + overlap) := by
  intro fuel
  induction fuel with
  | zero =>
    intro position chunk_id hf
    have h1 : text.length ≤ position := by omega
    rw [List.drop_eq_nil_of_le (by omega)]
    simp [chunkLoop]
  | succ fuel ih =>
    intro position chunk_id hf
    rw [chunkLoop]
    by_cases hp : position < text.length
    · rw [if_pos hp]
      rw [List.map_cons, List.flatten_cons]
      rw [ih (position + stride) (chunk_id + 1) (by omega)]
      have h1 : ((text.drop position).take size).drop overlap =
          (text.drop (position + overlap)).take stride := by
        rw [List.drop_take]
        rw [List.drop_drop]
        have hsz : size - overlap = stride := by omega
        rw [hsz]
      rw [h1]
      have h3 : text.drop (position + stride + overlap) =
          (text.drop (position + overlap)).drop stride := by
        rw [List.drop_drop]
        congr 1
        ring
      rw [h3]
      exact List.take_append_drop stride (text.drop (position + overlap))
    · rw [if_neg hp]
      rw [List.drop_eq_nil_of_le (by omega)]
      simp

/-! ### Segmenter lemmas -/

theorem findBoundary_bounds (s : List Char) (lo : Nat) :
    ∀ (idx r : Nat), findBoundary s lo idx = some r → lo < r ∧ r ≤ idx := by
  intro idx
  induction idx with
  | zero => intro r h; simp [findBoundary] at h
  | succ idx ih =>
    intro r h
    rw [findBoundary] at h
    by_cases h1 : idx + 1 ≤ lo
    · rw [if_pos h1] at h; cases h
    · rw [if_neg h1] at h
      by_cases h2 : boundaryChars.contains (s.getD idx ' ') = true
      · rw [if_pos h2] at h
        cases h
        omega
      · rw [if_neg h2] at h
        rcases ih r h with ⟨ha, hb⟩
        exact ⟨ha, by omega⟩

theorem segSplitPos_le (normalized : List Char) (maxC minC start : Nat) :
    segSplitPos normalized maxC minC start ≤ min (start + maxC) normalized.length := by
  rw [segSplitPos]
  rcases hfb : findBoundary normalized
      (max (start + minC) (min (start + maxC) normalized.length - 300))
      (min (start + maxC) normalized.length) with _ | r
  · simp
  · simp only [Option.getD_some]
    exact (findBoundary_bounds normalized _ _ r hfb).2

/-- In the non-final loop iteration (window end strictly before the text
end), the split position strictly advances and stays strictly inside the
text. -/
theorem segSplitPos_bounds (normalized : List Char) (maxC minC start : Nat)
    (hmax : 1 ≤ maxC)
    (hlt : ¬ min (start + maxC) normalized.length = normalized.length) :
    start < segSplitPos normalized maxC minC start ∧
      segSplitPos normalized maxC minC start < normalized.length := by
  have hend : start + maxC < normalized.length := by
    rcases Nat.lt_or_ge (start + maxC) normalized.length with h | h
    · exact h
    · exfalso
      exact hlt (Nat.min_eq_right h)
  rw [segSplitPos]
  rcases hfb : findBoundary normalized
      (max (start + minC) (min (start + maxC) normalized.length - 300))
      (min (start + maxC) normalized.length) with _ | r
  · simp only [Option.getD_none]
    omega
  · simp only [Option.getD_some]
    rcases findBoundary_bounds normalized _ _ r hfb with ⟨ha, hb⟩
    constructor
    · calc start ≤ max (start + minC) (min (start + maxC) normalized.length - 300) :=
            le_trans (Nat.le_add_right start minC) (Nat.le_max_left _ _)
        _ < r := ha
    · omega

/-- The tail of a list whose last character is not whitespace never
strips to nothing. -/
theorem pyStrip_drop_ne_nil (normalized : List Char) (start : Nat)
    (hs : start < normalized.length)
    (hlast : ∀ (h : normalized ≠ []), pyIsSpace (normalized.getLast h) = false) :
    pyStrip (normalized.drop start) ≠ [] := by
  have hd : normalized.drop start ≠ [] := by
    apply List.ne_nil_of_length_pos
    rw [List.length_drop]
    omega
  have hnn : normalized ≠ [] := by
    apply List.ne_nil_of_length_pos
    omega
  have hsplit : normalized.take start ++ normalized.drop start = normalized :=
    List.take_append_drop start normalized
  have hlast2 : pyIsSpace ((normalized.drop start).getLast hd) = false := by
    have hq : (normalized.drop start).getLast? =
        some ((normalized.drop start).getLast hd) :=
      List.getLast?_eq_getLast _ hd
    have hn : normalized.getLast? = some (normalized.getLast hnn) :=
      List.getLast?_eq_getLast _ hnn
    have happ : normalized.getLast? = (normalized.drop start).getLast? := by
      conv_lhs => rw [← hsplit]
      rw [List.getLast?_append, hq]
      simp
    have heq : normalized.getLast hnn = (normalized.drop start).getLast hd :=
      Option.some.inj (hn.symm.trans (happ.trans hq))
    rw [← heq]
    exact hlast hnn
  intro hcontra
  have := (pyStrip_eq_nil_iff (normalized.drop start)).mp hcontra
  have hmem := List.getLast_mem hd
  have := this _ hmem
  rw [hlast2] at this
  cases this

/-- Every segment the loop emits is non-empty and at most `maxC`
long. -/
theorem segLoop_mem_ok (normalized : List Char) (maxC minC : Nat)
    (hlast : ∀ (h : normalized ≠ []), pyIsSpace (normalized.getLast h) = false) :
    ∀ (fuel start : Nat) (seg : List Char),
      seg ∈ segLoop normalized maxC minC fuel start →
      seg ≠ [] ∧ seg.length ≤ maxC := by
  intro fuel
  induction fuel with
  | zero => intro start seg h; simp [segLoop] at h
  | succ fuel ih =>
    intro start seg hmem
    rw [segLoop] at hmem
    by_cases hs : start < normalized.length
    · rw [if_pos hs] at hmem
      by_cases hend : min (start + maxC) normalized.length = normalized.length
      · rw [if_pos hend] at hmem
        have hseg : seg =
            pyStrip ((normalized.drop start).take (normalized.length - start)) := by
          simpa using hmem
        have hfull : (normalized.drop start).take (normalized.length - start) =
            normalized.drop start := by
          have : (normalized.drop start).length = normalized.length - start :=
            List.length_drop start normalized
          rw [← this, List.take_length]
        rw [hseg, hfull]
        constructor
        · exact pyStrip_drop_ne_nil normalized start hs hlast
        · have h1 : (pyStrip (normalized.drop start)).length ≤
              (normalized.drop start).length := pyStrip_length_le _
          rw [List.length_drop] at h1
          omega
      · rw [if_neg hend] at hmem
        by_cases hemp : (pyStrip ((normalized.drop start).take
            (segSplitPos normalized maxC minC start - start))).isEmpty = true
        · rw [if_pos hemp] at hmem
          exact ih _ seg hmem
        · rw [if_neg hemp] at hmem
          rcases List.mem_cons.mp hmem with hseg | htail
          · subst hseg
            constructor
            · intro hnil
              rw [hnil] at hemp
              simp at hemp
            · have h1 : (pyStrip ((normalized.drop start).take
                  (segSplitPos normalized maxC minC start - start))).length ≤
                  ((normalized.drop start).take
                    (segSplitPos normalized maxC minC start - start)).length :=
                pyStrip_length_le _
              have h2 : ((normalized.drop start).take
                  (segSplitPos normalized maxC minC start - start)).length ≤
                  segSplitPos normalized maxC minC start - start := by
                rw [List.length_take]
                omega
              have h3 := segSplitPos_le normalized maxC minC start
              omega
          · exact ih _ seg htail
    · rw [if_neg hs] at hmem
      cases hmem

/-- With enough fuel the loop always emits at least one segment once it
starts inside the text. -/
theorem segLoop_ne_nil (normalized : List Char) (maxC minC : Nat)
    (hmax : 1 ≤ maxC) :
    ∀ (fuel start : Nat), start < normalized.length →
      normalized.length - start ≤ fuel →
      segLoop normalized maxC minC fuel start ≠ [] := by
  intro fuel
  induction fuel with
  | zero => intro start hs hf; omega
  | succ fuel ih =>
    intro start hs hf
    rw [segLoop, if_pos hs]
    by_cases hend : min (start + maxC) normalized.length = normalized.length
    · rw [if_pos hend]
      simp
    · rw [if_neg hend]
      rcases segSplitPos_bounds normalized maxC minC start hmax hend with ⟨h1, h2⟩
      by_cases hemp : (pyStrip ((normalized.drop start).take
          (segSplitPos normalized maxC minC start - start))).isEmpty = true
      · rw [if_pos hemp]
        exact ih (segSplitPos normalized maxC minC start) h2 (by omega)
      · rw [if_neg hemp]
        simp

/-- The loop result does not depend on the fuel once the fuel covers the
remaining text: the Python `while` loop terminates. -/
theorem segLoop_fuel_irrelevant (normalized : List Char) (maxC minC : Nat)
    (hmax : 1 ≤ maxC) :
    ∀ (f1 f2 start : Nat), normalized.length - start ≤ f1 →
      normalized.length - start ≤ f2 →
      segLoop normalized maxC minC f1 start = segLoop normalized maxC minC f2 start := by
  intro f1
  induction f1 with
  | zero =>
    intro f2 start h1 h2
    have hs : ¬ start < normalized.length := by omega
    cases f2 with
    | zero => rfl
    | succ g =>
      rw [segLoop, segLoop, if_neg hs]
  | succ f1 ih =>
    intro f2 start h1 h2
    by_cases hs : start < normalized.length
    · have hf2 : 1 ≤ f2 := by omega
      cases f2 with
      | zero => omega
      | succ g =>
        rw [segLoop, segLoop, if_pos hs, if_pos hs]
        by_cases hend : min (start + maxC) normalized.length = normalized.length
        · rw [if_pos hend, if_pos hend]
        · rw [if_neg hend, if_neg hend]
          rcases segSplitPos_bounds normalized maxC minC start hmax hend with ⟨hb1, hb2⟩
          have hrec := ih g (segSplitPos normalized maxC minC start)
            (by omega) (by omega)
          by_cases hemp : (pyStrip ((normalized.drop start).take
              (segSplitPos normalized maxC minC start - start))).isEmpty = true
          · rw [if_pos hemp, if_pos hemp, hrec]
          · rw [if_neg hemp, if_neg hemp, hrec]
    · cases f2 with
      | zero => rw [segLoop, segLoop, if_neg hs]
      | succ g => rw [segLoop, segLoop, if_neg hs, if_neg hs]

/-- Stripped lists have a non-whitespace last character. -/
theorem pyStrip_getLast_false (m : List Char)
    (h : pyStrip m ≠ []) : pyIsSpace ((pyStrip m).getLast h) = false := by
  have := pyStrip_getLast_not_space m h
  simpa using this

/-! ## Claims -/

/-- C4 (counterexample): the claim computes the relative threshold from
the raw input lengths, but `normalized_similarity` computes it from the
lengths of the canonical (stripped, case-folded) forms.  With ten
trailing spaces the raw length is 20 (claimed threshold 4) while the
canonical length is 10 against 14 (actual threshold 3); the canonical
distance is 4, so the code answers `false` where the claim requires
`true`. -/
theorem C4_counterexample :
    normalized_similarity (pyStr "abcdefghij          ") (pyStr "abcdefghijklmn")
        = false ∧
      (canonical (pyStr "abcdefghij          ") = canonical (pyStr "abcdefghijklmn") ∨
        levenshtein_distance (canonical (pyStr "abcdefghij          "))
            (canonical (pyStr "abcdefghijklmn")) ≤
          max 3 (max (pyStr "abcdefghij          ").length
            (pyStr "abcdefghijklmn").length / 5)) := by
  constructor
  · decide
  · right
    decide

/-- C4 (amended): `normalized_similarity` is symmetric, and returns true
iff the canonical forms are equal or their Levenshtein distance is at
most `max 3 (floor (0.2 * max of the canonical lengths))`. -/
theorem C4_similarity_characterization (a b : List Char) :
    normalized_similarity a b = normalized_similarity b a ∧
      (normalized_similarity a b = true ↔
        (canonical a = canonical b ∨
          levenshtein_distance (canonical a) (canonical b) ≤
            max 3 (max (canonical a).length (canonical b).length / 5))) := by
  refine ⟨normalized_similarity_symm a b, ?_⟩
  simp only [normalized_similarity]
  by_cases h : canonical a = canonical b
  · simp [h]
  · simp [h]

/-- C1 (counterexample): `EntityDiffCalculator.calculate` runs the
legacy absolute threshold 2, not the Deduplication Engine's canonical
relative threshold: at canonical distance 3 the claim's pipeline reports
no diff while the code reports a hallucination and a missing entity. -/
theorem C1_counterexample :
    calculate [pyStr "abcd"] [pyStr "axyz"] ≠
      specCalculate [pyStr "abcd"] [pyStr "axyz"] := by
  decide

/-- C1 (amended): `calculate` deduplicates both inputs with the engine's
legacy absolute threshold 2 and filters each deduplicated list by the
same exact-canonical-match-or-distance-at-most-2 test against the other
list. -/
theorem C1_calculate_legacy (request_entities response_entities : List (List Char)) :
    calculate request_entities response_entities =
      legacyCalculate request_entities response_entities := by
  rw [calculate, legacyCalculate]
  rfl

/-- C5: default-mode deduplication yields a list with no two mutually
similar elements, preserves the input order (it is a subsequence of the
stripped input), and is idempotent. -/
theorem C5_dedup_properties (xs : List (List Char)) :
    (deduplicate_entities xs none).Pairwise
        (fun a b => normalized_similarity a b = false) ∧
      (deduplicate_entities xs none).Sublist (xs.map pyStrip) ∧
      (∀ x ∈ xs, ∃ r ∈ deduplicate_entities xs none,
        normalized_similarity x r = true) ∧
      deduplicate_entities (deduplicate_entities xs none) none =
        deduplicate_entities xs none := by
  refine ⟨(dedupGo_pairwise xs [] (by simp) (by simp)).1, ?_, ?_,
    deduplicate_entities_idem xs⟩
  · rcases dedupGo_sublist none xs [] with ⟨t, ht, hsub⟩
    rw [deduplicate_entities, ht]
    simpa using hsub
  · intro x hx
    rcases dedupGo_covers none xs [] x hx with ⟨r, hr, hrt⟩
    exact ⟨r, hr, by simpa [dedupTest] using hrt⟩

/-- C5 witness: the discarded near-duplicate "Apples" is represented by
a similar survivor of the deduplicated list. -/
theorem C5_witness :
    ∃ r ∈ deduplicate_entities [pyStr "Apple", pyStr "Apples"] none,
      normalized_similarity (pyStr "Apples") r = true :=
  (C5_dedup_properties [pyStr "Apple", pyStr "Apples"]).2.2.1
    (pyStr "Apples") (by simp)

/-- C2: when a request mention and a response mention share a canonical
form (in particular when one string occurs verbatim in both inputs, or
the occurrences differ only by case and surrounding whitespace), no
entity with that canonical form survives into either output list of
`calculate`. -/
theorem C2_shared_entity_in_neither
    (request_entities response_entities : List (List Char)) (a b : List Char)
    (ha : a ∈ request_entities) (hb : b ∈ response_entities)
    (hab : canonical a = canonical b) :
    (∀ e ∈ (calculate request_entities response_entities).potential_hallucinations,
        canonical e ≠ canonical a) ∧
      (∀ e ∈ (calculate request_entities response_entities).missing_entities,
        canonical e ≠ canonical a) := by
  constructor
  · intro e he heq
    have hmem : e ∈ (deduplicate_entities response_entities (some 2)).filter
        (fun e => ! isSimilarToAny e (deduplicate_entities request_entities (some 2))) := by
      simpa [calculate] using he
    have hnot := (List.mem_filter.mp hmem).2
    rcases dedupGo_covers (some 2) request_entities [] a ha with ⟨r, hr, hrt⟩
    have hsim : isSimilarToAny e (deduplicate_entities request_entities (some 2)) = true := by
      rw [isSimilarToAny, List.any_eq_true]
      refine ⟨r, hr, ?_⟩
      rw [heq]
      simpa [dedupTest] using hrt
    rw [hsim] at hnot
    simp at hnot
  · intro e he heq
    have hmem : e ∈ (deduplicate_entities request_entities (some 2)).filter
        (fun e => ! isSimilarToAny e (deduplicate_entities response_entities (some 2))) := by
      simpa [calculate] using he
    have hnot := (List.mem_filter.mp hmem).2
    rcases dedupGo_covers (some 2) response_entities [] b hb with ⟨p, hp, hpt⟩
    have hsim : isSimilarToAny e (deduplicate_entities response_entities (some 2)) = true := by
      rw [isSimilarToAny, List.any_eq_true]
      refine ⟨p, hp, ?_⟩
      rw [heq, hab]
      simpa [dedupTest] using hpt
    rw [hsim] at hnot
    simp at hnot

/-- C2 witness: with request mentions " Alice ", "Bob" and response
mention "alice", the surviving missing entity "Bob" is not the shared
Alice mention. -/
theorem C2_witness : canonical (pyStr "Bob") ≠ canonical (pyStr " Alice ") :=
  (C2_shared_entity_in_neither [pyStr " Alice ", pyStr "Bob"] [pyStr "alice"]
    (pyStr " Alice ") (pyStr "alice") (by simp) (by simp) (by decide)).2
    (pyStr "Bob") (by decide)

/-- Successful chunking implies the parameters passed validation. -/
theorem split_text_ok_params (text : List Char)
    (chunk_size chunk_overlap start_id : Int) (chunks : List FileChunk)
    (h : split_text text chunk_size chunk_overlap start_id = Except.ok chunks) :
    0 < chunk_size ∧ 0 ≤ chunk_overlap ∧ chunk_overlap < chunk_size := by
  by_cases h1 : chunk_size ≤ 0
  · simp [split_text, validateParameters, h1] at h
  · by_cases h2 : chunk_overlap < 0
    · simp [split_text, validateParameters, h1, h2] at h
    · by_cases h3 : chunk_overlap ≥ chunk_size
      · simp [split_text, validateParameters, h1, h2, h3] at h
      · omega

/-- C6: `split_text` fails before producing chunks exactly on invalid
parameters, with an error message naming the offending value, and
returns an empty chunk list without error on empty input. -/
theorem C6_validation (text : List Char) (chunk_size chunk_overlap start_id : Int) :
    (chunk_size ≤ 0 →
      split_text text chunk_size chunk_overlap start_id =
        Except.error (chunkSizeError chunk_size)) ∧
      (0 < chunk_size → chunk_overlap < 0 →
        split_text text chunk_size chunk_overlap start_id =
          Except.error (chunkOverlapNegError chunk_overlap)) ∧
      (0 < chunk_size → 0 ≤ chunk_overlap → chunk_size ≤ chunk_overlap →
        split_text text chunk_size chunk_overlap start_id =
          Except.error (chunkOverlapRangeError chunk_overlap chunk_size)) ∧
      (0 < chunk_size → 0 ≤ chunk_overlap → chunk_overlap < chunk_size →
        ∃ chunks, split_text text chunk_size chunk_overlap start_id =
          Except.ok chunks) ∧
      (0 < chunk_size → 0 ≤ chunk_overlap → chunk_overlap < chunk_size →
        split_text [] chunk_size chunk_overlap start_id = Except.ok []) := by
  refine ⟨?_, ?_, ?_, ?_, ?_⟩
  · intro h
    simp [split_text, validateParameters, h]
  · intro h1 h2
    have hn : ¬ chunk_size ≤ 0 := by omega
    simp [split_text, validateParameters, hn, h2]
  · intro h1 h2 h3
    have hn : ¬ chunk_size ≤ 0 := by omega
    have hn2 : ¬ chunk_overlap < 0 := by omega
    have hge : chunk_overlap ≥ chunk_size := h3
    simp [split_text, validateParameters, hn, hn2, hge]
  · intro h1 h2 h3
    have hn : ¬ chunk_size ≤ 0 := by omega
    have hn2 : ¬ chunk_overlap < 0 := by omega
    have hn3 : ¬ chunk_overlap ≥ chunk_size := by omega
    by_cases ht : text.isEmpty = true
    · exact ⟨[], by simp [split_text, validateParameters, hn, hn2, hn3, ht]⟩
    · exact ⟨chunkLoop text chunk_size.toNat (chunk_size.toNat - chunk_overlap.toNat)
        text.length 0 start_id,
        by simp [split_text, validateParameters, hn, hn2, hn3, ht]⟩
  · intro h1 h2 h3
    have hn : ¬ chunk_size ≤ 0 := by omega
    have hn2 : ¬ chunk_overlap < 0 := by omega
    have hn3 : ¬ chunk_overlap ≥ chunk_size := by omega
    simp [split_text, validateParameters, hn, hn2, hn3]

/-- C6 witness: valid parameters on empty text give an empty result. -/
theorem C6_witness : split_text [] 10 3 0 = Except.ok [] :=
  (C6_validation [] 10 3 0).2.2.2.2 (by decide) (by decide) (by decide)

/-- C3: for every successful chunking, dropping the first
`chunk_overlap` characters of every chunk but the first and
concatenating reconstructs the input text exactly. -/
theorem C3_reconstruction (text : List Char)
    (chunk_size chunk_overlap start_id : Int) (chunks : List FileChunk)
    (h : split_text text chunk_size chunk_overlap start_id = Except.ok chunks) :
    reconstruct chunk_overlap.toNat chunks = text := by
  rcases split_text_ok_params text chunk_size chunk_overlap start_id chunks h
    with ⟨h1, h2, h3⟩
  have hn : ¬ chunk_size ≤ 0 := by omega
  have hn2 : ¬ chunk_overlap < 0 := by omega
  have hn3 : ¬ chunk_overlap ≥ chunk_size := by omega
  by_cases ht : text.isEmpty = true
  · have htxt : text = [] := List.isEmpty_iff.mp ht
    simp [split_text, validateParameters, hn, hn2, hn3, ht] at h
    subst h
    rw [reconstruct]
    exact htxt.symm
  · simp [split_text, validateParameters, hn, hn2, hn3, ht] at h
    have htxt : ¬ text = [] := by
      intro hh
      rw [hh] at ht
      simp at ht
    have hstride : 0 < chunk_size.toNat - chunk_overlap.toNat := by omega
    have hso : (chunk_size.toNat - chunk_overlap.toNat) + chunk_overlap.toNat =
        chunk_size.toNat := by omega
    have hL : 0 < text.length := List.length_pos.mpr htxt
    obtain ⟨m, hm⟩ : ∃ m, text.length = m + 1 := ⟨text.length - 1, by omega⟩
    rw [← h, hm, chunkLoop, if_pos (by omega : 0 < text.length), reconstruct]
    have hjoin := chunkLoop_dropped_join text chunk_size.toNat
      (chunk_size.toNat - chunk_overlap.toNat) chunk_overlap.toNat hstride hso
      m (0 + (chunk_size.toNat - chunk_overlap.toNat)) (start_id + 1) (by omega)
    rw [hjoin]
    simp only [List.drop_zero]
    have harith : 0 + (chunk_size.toNat - chunk_overlap.toNat) + chunk_overlap.toNat =
        chunk_size.toNat := by omega
    rw [harith]
    exact List.take_append_drop chunk_size.toNat text

/-- C3 witness: chunking "abcdef" with size 4 and overlap 2 yields
"abcd", "cdef", "ef", which reconstruct the input. -/
theorem C3_witness :
    reconstruct (2 : Int).toNat
        [⟨0, pyStr "abcd", [], none⟩, ⟨1, pyStr "cdef", [], none⟩,
          ⟨2, pyStr "ef", [], none⟩] = pyStr "abcdef" :=
  C3_reconstruction (pyStr "abcdef") 4 2 0
    [⟨0, pyStr "abcd", [], none⟩, ⟨1, pyStr "cdef", [], none⟩,
      ⟨2, pyStr "ef", [], none⟩] (by rfl)

/-- Pointwise characterization of a successful non-empty chunking. -/
theorem split_text_get (text : List Char)
    (chunk_size chunk_overlap start_id : Int) (chunks : List FileChunk)
    (h : split_text text chunk_size chunk_overlap start_id = Except.ok chunks)
    (i : Nat) (hi : i < chunks.length) :
    chunks.get ⟨i, hi⟩ =
      ⟨start_id + i,
        (text.drop (i * (chunk_size.toNat - chunk_overlap.toNat))).take chunk_size.toNat,
        [], none⟩ ∧
      i * (chunk_size.toNat - chunk_overlap.toNat) < text.length := by
  rcases split_text_ok_params text chunk_size chunk_overlap start_id chunks h
    with ⟨h1, h2, h3⟩
  have hn : ¬ chunk_size ≤ 0 := by omega
  have hn2 : ¬ chunk_overlap < 0 := by omega
  have hn3 : ¬ chunk_overlap ≥ chunk_size := by omega
  have hstride : 0 < chunk_size.toNat - chunk_overlap.toNat := by omega
  by_cases ht : text.isEmpty = true
  · simp [split_text, validateParameters, hn, hn2, hn3, ht] at h
    subst h
    simp at hi
  · simp [split_text, validateParameters, hn, hn2, hn3, ht] at h
    have hg : chunks.get? i = some (chunks.get ⟨i, hi⟩) := List.get?_eq_get hi
    have hg2 : (chunkLoop text chunk_size.toNat
        (chunk_size.toNat - chunk_overlap.toNat) text.length 0 start_id).get? i =
        some (chunks.get ⟨i, hi⟩) := by
      rw [h]
      exact hg
    rw [chunkLoop_get? text chunk_size.toNat (chunk_size.toNat - chunk_overlap.toNat)
      hstride text.length 0 start_id i (by omega)] at hg2
    by_cases hcond : 0 + i * (chunk_size.toNat - chunk_overlap.toNat) < text.length
    · rw [if_pos hcond] at hg2
      have hv := Option.some.inj hg2
      constructor
      · rw [← hv]
        simp only [Nat.zero_add]
      · omega
    · rw [if_neg hcond] at hg2
      cases hg2

/-- C7: successful chunking satisfies the data-model invariants:
consecutive ids starting at `start_id`, chunk length bounded by
`chunk_size`, and matching overlap between consecutive full-sized
chunks. -/
theorem C7_chunk_invariants (text : List Char)
    (chunk_size chunk_overlap start_id : Int) (chunks : List FileChunk)
    (h : split_text text chunk_size chunk_overlap start_id = Except.ok chunks) :
    (∀ (i : Nat) (hi : i < chunks.length),
        (chunks.get ⟨i, hi⟩).id = start_id + i) ∧
      (∀ c ∈ chunks, c.text.length ≤ chunk_size.toNat) ∧
      (∀ (i : Nat) (hi : i < chunks.length) (hi1 : i + 1 < chunks.length),
        (chunks.get ⟨i, hi⟩).text.length = chunk_size.toNat →
        (chunks.get ⟨i + 1, hi1⟩).text.length = chunk_size.toNat →
        (chunks.get ⟨i, hi⟩).text.drop
            ((chunks.get ⟨i, hi⟩).text.length - chunk_overlap.toNat) =
          (chunks.get ⟨i + 1, hi1⟩).text.take chunk_overlap.toNat) := by
  rcases split_text_ok_params text chunk_size chunk_overlap start_id chunks h
    with ⟨h1, h2, h3⟩
  have hov : chunk_overlap.toNat ≤ chunk_size.toNat := by omega
  refine ⟨?_, ?_, ?_⟩
  · intro i hi
    rw [(split_text_get text chunk_size chunk_overlap start_id chunks h i hi).1]
  · intro c hc
    rcases List.mem_iff_get.mp hc with ⟨⟨i, hi⟩, hval⟩
    rw [← hval, (split_text_get text chunk_size chunk_overlap start_id chunks h i hi).1]
    simp only [List.length_take]
    exact Nat.min_le_left _ _
  · intro i hi hi1 hleni hleni1
    rcases split_text_get text chunk_size chunk_overlap start_id chunks h i hi
      with ⟨hvi, hposi⟩
    rcases split_text_get text chunk_size chunk_overlap start_id chunks h (i + 1) hi1
      with ⟨hvi1, hposi1⟩
    rw [hvi] at hleni ⊢
    rw [hvi1] at hleni1 ⊢
    simp only []
    rw [hleni]
    rw [List.drop_take]
    rw [List.drop_drop]
    rw [List.take_take]
    have e1 : chunk_size.toNat - (chunk_size.toNat - chunk_overlap.toNat) =
        chunk_overlap.toNat := by omega
    have e2 : i * (chunk_size.toNat - chunk_overlap.toNat) +
        (chunk_size.toNat - chunk_overlap.toNat) =
        (i + 1) * (chunk_size.toNat - chunk_overlap.toNat) := by ring
    have e3 : min chunk_overlap.toNat chunk_size.toNat = chunk_overlap.toNat :=
      Nat.min_eq_left hov
    rw [e1, e2, e3]

/-- C7 witness: the middle chunk of "abcdef" split with size 4 and
overlap 2 respects the size bound. -/
theorem C7_witness : (pyStr "cdef").length ≤ (4 : Int).toNat :=
  (C7_chunk_invariants (pyStr "abcdef") 4 2 0
    [⟨0, pyStr "abcd", [], none⟩, ⟨1, pyStr "cdef", [], none⟩,
      ⟨2, pyStr "ef", [], none⟩] (by rfl)).2.1
    ⟨1, pyStr "cdef", [], none⟩ (by simp)

/-- A backend raising an error contributes exactly as much as being
skipped: the per-backend default of `[]` in the loop equals filtering
the failures out. -/
theorem mapDefault_eq_filterMap (extractors : List ExtractorFun)
    (text : List Char) (entity_types : List (List Char)) :
    (extractors.map (fun ex =>
        match ex text entity_types with
        | Except.ok entities => entities
        | Except.error _ => [])).flatten =
      (extractors.filterMap (fun ex => (ex text entity_types).toOption)).flatten := by
  induction extractors with
  | nil => rfl
  | cons ex rest ih =>
    rcases hex : ex text entity_types with u | l
    · simp [List.filterMap_cons, hex, Except.toOption, ih]
    · simp [List.filterMap_cons, hex, Except.toOption, ih]

/-- C8: for non-empty text and types, the composite extractor returns
the deduplicated concatenation of exactly the non-failing backends'
outputs in registration order; with a failing and a healthy backend it
returns the healthy backend's deduplicated output without raising. -/
theorem C8_composite_isolation (extractors : List ExtractorFun)
    (text : List Char) (entity_types : List (List Char))
    (htext : text ≠ []) (htypes : entity_types ≠ []) :
    compositeExtract extractors text entity_types =
      deduplicate_entities
        ((extractors.filterMap (fun ex => (ex text entity_types).toOption)).flatten)
        none ∧
      (∀ (failing healthy : ExtractorFun) (result : List (List Char)),
        failing text entity_types = Except.error () →
        healthy text entity_types = Except.ok result →
        compositeExtract [failing, healthy] text entity_types =
          deduplicate_entities result none) := by
  have hcond : ¬ ((text.isEmpty || entity_types.isEmpty) = true) := by
    simp [List.isEmpty_iff, htext, htypes]
  constructor
  · rw [compositeExtract, if_neg hcond, mapDefault_eq_filterMap]
  · intro failing healthy result hf hh
    rw [compositeExtract, if_neg hcond]
    simp [hf, hh]

/-- C8 witness: a failing plus a healthy backend yield exactly the
healthy backend's deduplicated output. -/
theorem C8_witness :
    compositeExtract [w8failing, w8healthy] (pyStr "x") [pyStr "Person"] =
      deduplicate_entities [pyStr "Bob", pyStr "bob"] none :=
  (C8_composite_isolation [w8failing, w8healthy] (pyStr "x") [pyStr "Person"]
    (by decide) (by simp)).2 w8failing w8healthy [pyStr "Bob", pyStr "bob"] rfl rfl

/-- C9 (counterexample): the claim promises at least one segment for
every non-empty input, but a whitespace-only input normalizes to the
empty string and yields no segment. -/
theorem C9_counterexample :
    splitForModel (pyStr " ") 1 0 = [] ∧ pyStr " " ≠ [] := by
  decide

/-- C9 (amended): for `max_segment_chars ≥ 1` every returned segment is
non-empty and at most `max_segment_chars` long; every input whose
whitespace-normalized form is non-empty yields at least one segment; and
the segmentation loop is stable in its fuel, i.e. the Python `while`
loop terminates within `len(normalized)` iterations. -/
theorem C9_segmenter_bounds (text : List Char) (maxC minC : Nat) (hmax : 1 ≤ maxC) :
    (∀ seg ∈ splitForModel text maxC minC, seg ≠ [] ∧ seg.length ≤ maxC) ∧
      (pyStrip (collapseWs text) ≠ [] → splitForModel text maxC minC ≠ []) ∧
      (∀ extra : Nat,
        segLoop (pyStrip (collapseWs text)) maxC minC
            ((pyStrip (collapseWs text)).length + extra) 0 =
          segLoop (pyStrip (collapseWs text)) maxC minC
            ((pyStrip (collapseWs text)).length) 0) := by
  refine ⟨?_, ?_, ?_⟩
  · intro seg hseg
    simp only [splitForModel] at hseg
    by_cases hemp : (pyStrip (collapseWs text)).isEmpty = true
    · rw [if_pos hemp] at hseg
      cases hseg
    · rw [if_neg hemp] at hseg
      by_cases hlen : (pyStrip (collapseWs text)).length ≤ maxC
      · rw [if_pos hlen] at hseg
        have hseg2 : seg = pyStrip (collapseWs text) := by simpa using hseg
        subst hseg2
        refine ⟨?_, hlen⟩
        intro hnil
        rw [hnil] at hemp
        simp at hemp
      · rw [if_neg hlen] at hseg
        exact segLoop_mem_ok (pyStrip (collapseWs text)) maxC minC
          (fun hne => pyStrip_getLast_false (collapseWs text) hne) _ _ seg hseg
  · intro hne
    simp only [splitForModel]
    have hemp : ¬ (pyStrip (collapseWs text)).isEmpty = true := by
      simp [List.isEmpty_iff, hne]
    rw [if_neg hemp]
    by_cases hlen : (pyStrip (collapseWs text)).length ≤ maxC
    · rw [if_pos hlen]
      simp
    · rw [if_neg hlen]
      exact segLoop_ne_nil (pyStrip (collapseWs text)) maxC minC hmax _ 0
        (by
          have := List.length_pos.mpr hne
          omega)
        (by omega)
  · intro extra
    exact segLoop_fuel_irrelevant (pyStrip (collapseWs text)) maxC minC hmax
      _ _ 0 (by omega) (by omega)

/-- C9 witness: a concrete text is segmented into at least one
segment. -/
theorem C9_witness : splitForModel (pyStr "ab. cd") 3 0 ≠ [] :=
  (C9_segmenter_bounds (pyStr "ab. cd") 3 0 (by decide)).2.1 (by decide)

theorem embNormalize_length (n : Nat) (es : List (Option (List Int))) :
    (embNormalize n es).length = n := by
  rw [embNormalize]
  by_cases h : es.length ≠ n
  · rw [if_pos h]
    simp only [List.length_append, List.length_take, List.length_replicate]
    omega
  · rw [if_neg h]
    omega

theorem embNormalize_get? (i n : Nat) (es : List (Option (List Int))) (hi : i < n) :
    (embNormalize n es).get? i = some ((es.get? i).getD none) := by
  rw [embNormalize]
  by_cases h : es.length ≠ n
  · rw [if_pos h]
    have htl : (es.take n).length = min n es.length := List.length_take n es
    by_cases hil : i < es.length
    · have hmin : i < (es.take n).length := by omega
      rw [List.get?_eq_getElem?, List.getElem?_append, if_pos hmin,
        List.getElem?_take_of_lt hi, List.getElem?_eq_getElem hil]
      simp [List.get?_eq_getElem?, List.getElem?_eq_getElem hil]
    · have hmin : ¬ i < (es.take n).length := by omega
      rw [List.get?_eq_getElem?, List.getElem?_append, if_neg hmin, htl]
      have hm2 : min n es.length = es.length := by omega
      rw [hm2]
      have hrep : i - es.length < n - es.length := by omega
      rw [List.getElem?_replicate, if_pos hrep]
      have hnone : es.get? i = none := List.get?_eq_none.mpr (by omega)
      rw [hnone]
      rfl
  · rw [if_neg h]
    have hil : i < es.length := by omega
    rw [List.get?_eq_get hil]
    rfl

/-- C10: the embedding population stage preserves length, order, ids,
texts and entities, and sets each embedding to the generator's
corresponding vector, or to `none` on a generator error or a length
mismatch. -/
theorem C10_embedding_frame
    (generate : List (List Char) → Except Unit (List (Option (List Int))))
    (chunks : List FileChunk) :
    (generateEmbeddingsForChunks generate chunks).length = chunks.length ∧
      (∀ (i : Nat) (hi : i < (generateEmbeddingsForChunks generate chunks).length)
          (hj : i < chunks.length),
        ((generateEmbeddingsForChunks generate chunks).get ⟨i, hi⟩).id =
            (chunks.get ⟨i, hj⟩).id ∧
          ((generateEmbeddingsForChunks generate chunks).get ⟨i, hi⟩).text =
            (chunks.get ⟨i, hj⟩).text ∧
          ((generateEmbeddingsForChunks generate chunks).get ⟨i, hi⟩).entities =
            (chunks.get ⟨i, hj⟩).entities) ∧
      (∀ (i : Nat) (hi : i < (generateEmbeddingsForChunks generate chunks).length),
        ((generateEmbeddingsForChunks generate chunks).get ⟨i, hi⟩).embedding =
          match generate (chunks.map (fun c => c.text)) with
          | Except.ok es => (es.get? i).getD none
          | Except.error _ => none) := by
  by_cases hc : chunks.isEmpty = true
  · have hnil : chunks = [] := List.isEmpty_iff.mp hc
    subst hnil
    refine ⟨by simp [generateEmbeddingsForChunks], ?_, ?_⟩
    · intro i hi hj
      simp at hj
    · intro i hi
      simp [generateEmbeddingsForChunks] at hi
  · have hres : generateEmbeddingsForChunks generate chunks =
        (chunks.zip (embNormalize chunks.length (embCallGenerator generate chunks))).map
          (fun p => ⟨p.1.id, p.1.text, p.1.entities, p.2⟩) := by
      rw [generateEmbeddingsForChunks, if_neg hc]
    have hnlen : (embNormalize chunks.length (embCallGenerator generate chunks)).length =
        chunks.length := embNormalize_length chunks.length _
    have hlen : (generateEmbeddingsForChunks generate chunks).length = chunks.length := by
      rw [hres, List.length_map, List.length_zip, hnlen, Nat.min_self]
    have hget : ∀ (i : Nat) (hi : i < (generateEmbeddingsForChunks generate chunks).length),
        (generateEmbeddingsForChunks generate chunks).get ⟨i, hi⟩ =
          ⟨(chunks.get ⟨i, by omega⟩).id, (chunks.get ⟨i, by omega⟩).text,
            (chunks.get ⟨i, by omega⟩).entities,
            (embNormalize chunks.length (embCallGenerator generate chunks)).get
              ⟨i, by rw [embNormalize_length]; omega⟩⟩ := by
      intro i hi
      have hi3 : i < chunks.length := by omega
      have hzb : i < (chunks.zip (embNormalize chunks.length
          (embCallGenerator generate chunks))).length := by
        rw [List.length_zip, hnlen, Nat.min_self]
        exact hi3
      have hmb : i < ((chunks.zip (embNormalize chunks.length
          (embCallGenerator generate chunks))).map
          (fun p => (⟨p.1.id, p.1.text, p.1.entities, p.2⟩ : FileChunk))).length := by
        rw [List.length_map]
        exact hzb
      have hq : (generateEmbeddingsForChunks generate chunks).get? i =
          some ⟨(chunks.get ⟨i, hi3⟩).id, (chunks.get ⟨i, hi3⟩).text,
            (chunks.get ⟨i, hi3⟩).entities,
            (embNormalize chunks.length (embCallGenerator generate chunks)).get
              ⟨i, by rw [embNormalize_length]; exact hi3⟩⟩ := by
        rw [hres, List.get?_eq_getElem?, List.getElem?_eq_getElem hmb]
        simp [List.getElem_map, List.getElem_zip, List.get_eq_getElem]
      have hsome : (generateEmbeddingsForChunks generate chunks).get? i =
          some ((generateEmbeddingsForChunks generate chunks).get ⟨i, hi⟩) :=
        List.get?_eq_get hi
      exact Option.some.inj (hsome.symm.trans hq)
    refine ⟨hlen, ?_, ?_⟩
    · intro i hi hj
      rw [hget i hi]
      exact ⟨rfl, rfl, rfl⟩
    · intro i hi
      rw [hget i hi]
      simp only []
      have hi3 : i < chunks.length := by omega
      have hb : i < (embNormalize chunks.length (embCallGenerator generate chunks)).length := by
        rw [embNormalize_length]
        exact hi3
      have hsome : (embNormalize chunks.length (embCallGenerator generate chunks)).get? i =
          some ((embNormalize chunks.length
            (embCallGenerator generate chunks)).get ⟨i, hb⟩) :=
        List.get?_eq_get hb
      have hq := embNormalize_get? i chunks.length (embCallGenerator generate chunks) hi3
      have hval := Option.some.inj (hsome.symm.trans hq)
      rw [hval, embCallGenerator]
      rcases hgen : generate (chunks.map (fun c => c.text)) with u | es
      · rw [hgen]
        simp [List.get?_eq_getElem?, List.getElem?_replicate, hi3]
      · rw [hgen]

/-- C10 witness: the second rebuilt chunk keeps its id. -/
theorem C10_witness :
    ((generateEmbeddingsForChunks w10generate w10chunks).get ⟨1, by decide⟩).id =
      (w10chunks.get ⟨1, by decide⟩).id :=
  ((C10_embedding_frame w10generate w10chunks).2.1 1 (by decide) (by decide)).1

end NerController
